import Mathlib

/-!
# Line-coding codec: verified embedding

Shallow embedding of the digital line-coding codec implemented in
`src/teste.py` and `src/teste1.py` (class `DigitalEncoder` and
`TransmissionSystem.simulate_channel`), together with theorems settling
the specification's claims about it.

Bits and signal levels are both modelled as `Int` (Python `int`): the
decoders emit the literal integers `0`/`1`, the AMI encoder emits
`-1`/`0`/`1`.  Each Python `while`/`for` loop that carries running state
(`level`, `last_polarity`, the previously decoded bit) is embedded as a
structurally recursive function carrying that state as an argument; the
dispatch dictionaries become a `Scheme` enumeration (and, where the claim
is about unrecognized scheme names, a `String`-keyed dispatch returning
`Except`).  Decode-side `print` warnings are modelled as returned data:
the teste1 Manchester decoder returns, besides its bit list, the list of
level positions at which the invalid-transition warning is printed and
the number of padding bits reported.
-/

namespace Transmissao

/-! ## Encoders (identical in teste.py, teste1.py and teste2audio.py) -/

/-- `DigitalEncoder.manchester_encode`: bit 0 ↦ `[0,1]`, anything else ↦ `[1,0]`. -/
def manchester_encode : List Int → List Int
  | [] => []
  | b :: rest =>
    if b = 0 then 0 :: 1 :: manchester_encode rest
    else 1 :: 0 :: manchester_encode rest

/-- `DigitalEncoder.nrz_encode`: appends each input value unchanged. -/
def nrz_encode (binary_data : List Int) : List Int :=
  binary_data

/-- Loop of `DigitalEncoder.nrzi_encode`, carrying the running `level`
(initially 0): bit 0 keeps the level, anything else flips it; the
current level is appended each step. -/
def nrziFrom (level : Int) : List Int → List Int
  | [] => []
  | b :: rest =>
    if b = 0 then level :: nrziFrom level rest
    else (1 - level) :: nrziFrom (1 - level) rest

/-- `DigitalEncoder.nrzi_encode`: initial level 0. -/
def nrzi_encode (binary_data : List Int) : List Int :=
  nrziFrom 0 binary_data

/-- Loop of `DigitalEncoder.ami_encode`, carrying `last_polarity`
(initially +1): bit 0 emits level 0, anything else negates the polarity
and emits it. -/
def amiFrom (last_polarity : Int) : List Int → List Int
  | [] => []
  | b :: rest =>
    if b = 0 then 0 :: amiFrom last_polarity rest
    else (-last_polarity) :: amiFrom (-last_polarity) rest

/-- `DigitalEncoder.ami_encode`: initial polarity +1. -/
def ami_encode (binary_data : List Int) : List Int :=
  amiFrom 1 binary_data

/-- Loop of `DigitalEncoder.biphase_mark_encode`, carrying `level`
(initially 0): bit 1 flips the level at the symbol start; a mid-symbol
flip always follows; both halves are appended. -/
def biphaseMarkFrom (level : Int) : List Int → List Int
  | [] => []
  | b :: rest =>
    let l1 := if b = 1 then 1 - level else level
    l1 :: (1 - l1) :: biphaseMarkFrom (1 - l1) rest

/-- `DigitalEncoder.biphase_mark_encode`: initial level 0. -/
def biphase_mark_encode (binary_data : List Int) : List Int :=
  biphaseMarkFrom 0 binary_data

/-- Loop of `DigitalEncoder.biphase_space_encode`: as Biphase Mark but
the start-of-symbol flip happens on bit 0. -/
def biphaseSpaceFrom (level : Int) : List Int → List Int
  | [] => []
  | b :: rest =>
    let l1 := if b = 0 then 1 - level else level
    l1 :: (1 - l1) :: biphaseSpaceFrom (1 - l1) rest

/-- `DigitalEncoder.biphase_space_encode`: initial level 0. -/
def biphase_space_encode (binary_data : List Int) : List Int :=
  biphaseSpaceFrom 0 binary_data

/-- Loop of `DigitalEncoder.differential_manchester_encode`, carrying
`level` (initially 0): bit 0 appends `level` then flips for the
mid-symbol transition; anything else flips at the start, appends, flips
back at mid and appends. -/
def diffManchesterFrom (level : Int) : List Int → List Int
  | [] => []
  | b :: rest =>
    if b = 0 then level :: (1 - level) :: diffManchesterFrom (1 - level) rest
    else (1 - level) :: level :: diffManchesterFrom level rest

/-- `DigitalEncoder.differential_manchester_encode`: initial level 0. -/
def differential_manchester_encode (binary_data : List Int) : List Int :=
  diffManchesterFrom 0 binary_data

/-! ## Decoders shared verbatim by teste.py and teste1.py -/

/-- `DigitalEncoder.nrz_decode`: the identity. -/
def nrz_decode (encoded_data : List Int) : List Int :=
  encoded_data

/-- `DigitalEncoder.nrzi_decode`: for `i` from 1 to N-1, emit 1 when
`encoded_data[i] ≠ encoded_data[i-1]`, else 0 (the first sample has no
predecessor and yields no bit). -/
def nrzi_decode : List Int → List Int
  | a :: b :: rest =>
    (if b ≠ a then 1 else 0) :: nrzi_decode (b :: rest)
  | _ => []

/-- `DigitalEncoder.ami_decode`: level 0 ↦ bit 0, any other level ↦ bit 1. -/
def ami_decode : List Int → List Int
  | [] => []
  | l :: rest => (if l = 0 then 0 else 1) :: ami_decode rest

/-- Loop of `DigitalEncoder.biphase_mark_decode` for symbol positions
`i ≥ 2`, with `prev = encoded_data[i-1]`: emit 1 when the symbol's first
level differs from the previous sample, else 0; advance two samples. -/
def biphaseMarkDecAux (prev : Int) : List Int → List Int
  | a :: b :: rest => (if prev ≠ a then 1 else 0) :: biphaseMarkDecAux b rest
  | _ => []

/-- `DigitalEncoder.biphase_mark_decode`: the first symbol (`i = 0`)
always yields 0 because the `i > 0` guard fails there. -/
def biphase_mark_decode : List Int → List Int
  | _ :: b :: rest => 0 :: biphaseMarkDecAux b rest
  | _ => []

/-- Loop of `DigitalEncoder.biphase_space_decode` for `i ≥ 2`: the 0/1
outcomes of Biphase Mark swapped. -/
def biphaseSpaceDecAux (prev : Int) : List Int → List Int
  | a :: b :: rest => (if prev ≠ a then 0 else 1) :: biphaseSpaceDecAux b rest
  | _ => []

/-- `DigitalEncoder.biphase_space_decode`: the first symbol always
yields 1 (`i > 0` guard fails). -/
def biphase_space_decode : List Int → List Int
  | _ :: b :: rest => 1 :: biphaseSpaceDecAux b rest
  | _ => []

/-- `DigitalEncoder.differential_manchester_decode`: while at least four
samples remain (`i < len - 3`), compare the first level of the current
symbol with the first level of the next one; equal ↦ 1, different ↦ 0;
advance one symbol. -/
def differential_manchester_decode : List Int → List Int
  | a :: _ :: c :: d :: rest =>
    (if a = c then 1 else 0) :: differential_manchester_decode (c :: d :: rest)
  | _ => []

/-! ## The two Manchester decoders (the one point where the files differ) -/

namespace Teste

/-- `DigitalEncoder.manchester_decode` of `src/teste.py`: pair (0,1) ↦
bit 0, pair (1,0) ↦ bit 1; any other pair only prints an error and
contributes no output bit.  No padding is applied. -/
def manchester_decode : List Int → List Int
  | a :: b :: rest =>
    if a = 0 ∧ b = 1 then 0 :: manchester_decode rest
    else if a = 1 ∧ b = 0 then 1 :: manchester_decode rest
    else manchester_decode rest
  | _ => []

end Teste

namespace Teste1

/-- Pair loop of `DigitalEncoder.manchester_decode` of `src/teste1.py`.
`prev` is the last bit appended so far (`decoded[-1]`), initially 0 so
that an invalid first symbol recovers to 0; `i` is the sample position.
Returns the decoded bits and the positions at which the
"Aviso de erro ... na posição i" warning is printed. -/
def mdGo (prev : Int) : List Int → Nat → List Int × List Nat
  | a :: b :: rest, i =>
    if a = 0 ∧ b = 1 then
      let r := mdGo 0 rest (i + 2)
      (0 :: r.1, r.2)
    else if a = 1 ∧ b = 0 then
      let r := mdGo 1 rest (i + 2)
      (1 :: r.1, r.2)
    else
      let r := mdGo prev rest (i + 2)
      (prev :: r.1, i :: r.2)
  | _, _ => ([], [])

/-- `DigitalEncoder.manchester_decode` of `src/teste1.py`: decode pairs
with recovery, then, when the bit count is not a multiple of 8, extend
with 0-bits to the next multiple and report the count.  Returns
(decoded bits, warning positions, number of padding bits reported). -/
def manchester_decode (encoded_data : List Int) : List Int × List Nat × Nat :=
  let r := mdGo 0 encoded_data 0
  let padding := if r.1.length % 8 = 0 then 0 else 8 - r.1.length % 8
  (r.1 ++ List.replicate padding 0, r.2, padding)

end Teste1

/-! ## Scheme dispatch (teste1.py `encode`/`decode` dictionaries) -/

/-- The seven scheme identifiers registered in `self.encoding_methods` /
`self.decoding_methods`. -/
inductive Scheme where
  | Manchester
  | NRZ
  | NRZI
  | AMI
  | Biphase_Mark
  | Biphase_Space
  | Differential_Manchester
deriving DecidableEq, Repr

/-- `DigitalEncoder.encode` of teste1.py restricted to the seven
registered schemes. -/
def encode1 (binary_data : List Int) : Scheme → List Int
  | .Manchester => manchester_encode binary_data
  | .NRZ => nrz_encode binary_data
  | .NRZI => nrzi_encode binary_data
  | .AMI => ami_encode binary_data
  | .Biphase_Mark => biphase_mark_encode binary_data
  | .Biphase_Space => biphase_space_encode binary_data
  | .Differential_Manchester => differential_manchester_encode binary_data

/-- `DigitalEncoder.decode` of teste1.py restricted to the seven
registered schemes, returning the decoded bits together with the number
of padding bits the selected decoder reported (0 for every decoder
except Manchester, which is the only one that pads). -/
def decodeWithPad (encoded_data : List Int) : Scheme → List Int × Nat
  | .Manchester =>
    let r := Teste1.manchester_decode encoded_data
    (r.1, r.2.2)
  | .NRZ => (nrz_decode encoded_data, 0)
  | .NRZI => (nrzi_decode encoded_data, 0)
  | .AMI => (ami_decode encoded_data, 0)
  | .Biphase_Mark => (biphase_mark_decode encoded_data, 0)
  | .Biphase_Space => (biphase_space_decode encoded_data, 0)
  | .Differential_Manchester => (differential_manchester_decode encoded_data, 0)

/-- The decoded bit list returned by teste1.py's `DigitalEncoder.decode`. -/
def decode1 (encoded_data : List Int) (s : Scheme) : List Int :=
  (decodeWithPad encoded_data s).1

/-- `DigitalEncoder.encode` of teste.py with its string-keyed dispatch
dictionary: an unregistered method name raises `ValueError`, modelled as
`Except.error`; a registered name applies the scheme's encoder to the
input unconditionally (no bit validation exists anywhere). -/
def encodeByName (binary_data : List Int) (method : String) :
    Except String (List Int) :=
  if method = "Manchester" then .ok (manchester_encode binary_data)
  else if method = "NRZ" then .ok (nrz_encode binary_data)
  else if method = "NRZI" then .ok (nrzi_encode binary_data)
  else if method = "AMI" then .ok (ami_encode binary_data)
  else if method = "Biphase_Mark" then .ok (biphase_mark_encode binary_data)
  else if method = "Biphase_Space" then .ok (biphase_space_encode binary_data)
  else if method = "Differential_Manchester" then
    .ok (differential_manchester_encode binary_data)
  else .error "não implementado"

/-- The method names registered in the dispatch dictionaries. -/
def schemeNames : List String :=
  ["Manchester", "NRZ", "NRZI", "AMI", "Biphase_Mark", "Biphase_Space",
   "Differential_Manchester"]

/-! ## Channel noise simulator (`TransmissionSystem.simulate_channel`) -/

/-- Element loop of `simulate_channel`: `draws n` is the value returned
by the n-th call of `np.random.random()` (a real in [0,1), modelled as a
rational).  A draw below `noise_level` flips the level: 0 ↦ 1, 1 ↦ 0,
any other level ↦ 0. -/
def simGo (noise_level : ℚ) (draws : Nat → ℚ) : List Int → Nat → List Int
  | [], _ => []
  | b :: rest, n =>
    (if draws n < noise_level then
      if b = 0 then 1 else if b = 1 then 0 else 0
     else b) :: simGo noise_level draws rest (n + 1)

/-- `TransmissionSystem.simulate_channel`: `noise_level ≤ 0` returns an
unchanged copy of the input; otherwise each level is flipped when its
random draw falls below `noise_level`.  No validation of `noise_level`
is performed. -/
def simulate_channel (encoded_data : List Int) (noise_level : ℚ)
    (draws : Nat → ℚ) : List Int :=
  if noise_level ≤ 0 then encoded_data
  else simGo noise_level draws encoded_data 0

/-! ## Generic helpers -/

/-- The input really is a bit sequence: every element is 0 or 1. -/
def ValidBits (bits : List Int) : Prop :=
  ∀ b ∈ bits, b = 0 ∨ b = 1

/-- Every pair consumed by the Manchester decoders is a legal Manchester
symbol, (0,1) or (1,0). -/
def validPairsB : List Int → Bool
  | a :: b :: rest => ((a == 0 && b == 1) || (a == 1 && b == 0)) && validPairsB rest
  | _ => true

end Transmissao

namespace Transmissao

/-! ## NRZI decode: length and per-index behaviour (C2, C3) -/

theorem nrzi_decode_length : ∀ lv : List Int,
    (nrzi_decode lv).length = lv.length - 1
  | [] => rfl
  | [_] => rfl
  | a :: b :: rest => by
    have h := nrzi_decode_length (b :: rest)
    simp only [nrzi_decode, List.length_cons] at h ⊢
    omega

theorem nrzi_decode_getD : ∀ (i : Nat) (lv : List Int), i + 1 < lv.length →
    (nrzi_decode lv).getD i 0 =
      if lv.getD (i + 1) 0 ≠ lv.getD i 0 then 1 else 0
  | 0, a :: b :: _, _ => by
    simp [nrzi_decode, List.getD_cons_zero, List.getD_cons_succ]
  | i + 1, a :: b :: rest, h => by
    have ih := nrzi_decode_getD i (b :: rest) (by
      simp only [List.length_cons] at h ⊢; omega)
    simpa [nrzi_decode, List.getD_cons_succ] using ih

/-- C2: NRZI decode of an N-length level sequence has length N-1; the
first sample is skipped, and for every `i` from 1 to N-1 the decoded bit
at position `i-1` is 1 when `level[i] ≠ level[i-1]` and 0 otherwise. -/
theorem nrzi_decode_spec (lv : List Int) :
    (nrzi_decode lv).length = lv.length - 1 ∧
    ∀ i, 1 ≤ i → i < lv.length →
      (nrzi_decode lv).getD (i - 1) 0 =
        if lv.getD i 0 ≠ lv.getD (i - 1) 0 then 1 else 0 := by
  refine ⟨nrzi_decode_length lv, ?_⟩
  intro i h1 h2
  obtain ⟨j, rfl⟩ : ∃ j, i = j + 1 := ⟨i - 1, by omega⟩
  simpa using nrzi_decode_getD j lv h2

/-- C2 witness: the spec instantiated at the 3-sample input `[0,1,1]`. -/
theorem nrzi_decode_spec_witness :
    ((nrzi_decode [0, 1, 1]).length = ([0, 1, 1] : List Int).length - 1) ∧
    (1 ≤ 1 ∧ 1 < ([0, 1, 1] : List Int).length ∧
      (nrzi_decode [0, 1, 1]).getD 0 0 =
        if ([0, 1, 1] : List Int).getD 1 0 ≠ ([0, 1, 1] : List Int).getD 0 0
        then 1 else 0) :=
  ⟨(nrzi_decode_spec [0, 1, 1]).1,
   le_refl 1, by decide,
   (nrzi_decode_spec [0, 1, 1]).2 1 (by decide) (by decide)⟩

/-- C3 counterexample: the spec's worked example is wrong on the decode
side — `nrzi_decode [1,0,0,1]` is `[1,0,1]`, not `[1,1,0,1]` (the first
sample yields no bit). -/
theorem nrzi_example_claim_false :
    ¬ (nrzi_encode [1, 1, 0, 1] = [1, 0, 0, 1] ∧
       nrzi_decode [1, 0, 0, 1] = [1, 1, 0, 1]) := by
  decide

/-- C3 amended: encode of `[1,1,0,1]` starting at level 0 is `[1,0,0,1]`,
and decode of `[1,0,0,1]` is `[1,0,1]`. -/
theorem nrzi_example :
    nrzi_encode [1, 1, 0, 1] = [1, 0, 0, 1] ∧
    nrzi_decode [1, 0, 0, 1] = [1, 0, 1] := by
  decide

/-! ## First-symbol behaviour of the Biphase decoders (C9) -/

/-- C9: on any input of length ≥ 2 the first decoded bit of
`biphase_mark_decode` is 0 and of `biphase_space_decode` is 1,
whatever the level values are. -/
theorem biphase_decode_first_symbol (lv : List Int) (h : 2 ≤ lv.length) :
    (biphase_mark_decode lv).head? = some 0 ∧
    (biphase_space_decode lv).head? = some 1 := by
  match lv, h with
  | a :: b :: rest, _ =>
    simp [biphase_mark_decode, biphase_space_decode]

/-- C9 witness: instantiated at `[5,7,3]`, whose levels are not even
binary. -/
theorem biphase_decode_first_symbol_witness :
    2 ≤ ([5, 7, 3] : List Int).length ∧
    ((biphase_mark_decode [5, 7, 3]).head? = some 0 ∧
     (biphase_space_decode [5, 7, 3]).head? = some 1) :=
  ⟨by decide, biphase_decode_first_symbol [5, 7, 3] (by decide)⟩

end Transmissao

namespace Transmissao

/-! ## Per-scheme round-trip lemmas (C1) -/

theorem ValidBits.of_cons {b : Int} {rest : List Int}
    (h : ValidBits (b :: rest)) : ValidBits rest :=
  fun x hx => h x (List.mem_cons_of_mem _ hx)

/-- Decoding a Manchester encoding of genuine bits recovers the bits
with no warnings, whatever `prev` and `i` are. -/
theorem mdGo_manchester_encode : ∀ (B : List Int) (prev : Int) (i : Nat),
    ValidBits B → Teste1.mdGo prev (manchester_encode B) i = (B, [])
  | [], _, _, _ => rfl
  | b :: rest, prev, i, h => by
    have ih0 := mdGo_manchester_encode rest 0 (i + 2) h.of_cons
    have ih1 := mdGo_manchester_encode rest 1 (i + 2) h.of_cons
    rcases h b (by simp) with hb | hb <;>
      simp [manchester_encode, hb, Teste1.mdGo, ih0, ih1]

/-- NRZI: prepending the current level in front of the encoding of `B`
lets the decoder recover all of `B`. -/
theorem nrzi_decode_cons_nrziFrom : ∀ (B : List Int) (l : Int),
    ValidBits B → nrzi_decode (l :: nrziFrom l B) = B
  | [], _, _ => rfl
  | b :: rest, l, h => by
    rcases h b (by simp) with hb | hb
    · have ih := nrzi_decode_cons_nrziFrom rest l h.of_cons
      simpa [nrziFrom, hb, nrzi_decode] using ih
    · have ih := nrzi_decode_cons_nrziFrom rest (1 - l) h.of_cons
      have hne : 1 - l ≠ l := by omega
      simpa [nrziFrom, hb, nrzi_decode, hne] using ih

/-- NRZI round trip: the leading level of the encoding has no
predecessor, so the first bit of `B` is lost. -/
theorem nrzi_enc_dec (B : List Int) (hB : ValidBits B) :
    nrzi_decode (nrzi_encode B) = B.tail := by
  cases B with
  | nil => rfl
  | cons b rest =>
    rcases hB b (by simp) with hb | hb <;>
      simp [nrzi_encode, nrziFrom, hb, nrzi_decode_cons_nrziFrom rest _ hB.of_cons]

/-- AMI decode inverts AMI encode for genuine bits, for any nonzero
running polarity. -/
theorem ami_decode_amiFrom : ∀ (B : List Int) (p : Int),
    ValidBits B → p ≠ 0 → ami_decode (amiFrom p B) = B
  | [], _, _, _ => rfl
  | b :: rest, p, h, hp => by
    rcases h b (by simp) with hb | hb
    · have ih := ami_decode_amiFrom rest p h.of_cons hp
      simp [amiFrom, hb, ami_decode, ih]
    · have ih := ami_decode_amiFrom rest (-p) h.of_cons (by omega)
      have : -p ≠ 0 := by omega
      simp [amiFrom, hb, ami_decode, ih, this]

/-- Differential Manchester: decoding two prefix samples whose first
entry is the complement of the running level, followed by the encoding
of `B`, recovers `B`. -/
theorem dm_decode_aux : ∀ (B : List Int) (l s2 : Int),
    ValidBits B →
    differential_manchester_decode ((1 - l) :: s2 :: diffManchesterFrom l B) = B
  | [], _, _, _ => rfl
  | c :: rest, l, s2, h => by
    rcases h c (by simp) with hc | hc
    · have ih := dm_decode_aux rest (1 - l) (1 - l) h.of_cons
      have hne : ¬ (1 - l = l) := by omega
      simp only [diffManchesterFrom, hc, if_true, if_pos rfl]
      simp only [differential_manchester_decode, hne, if_false]
      simpa using ih
    · have ih := dm_decode_aux rest l l h.of_cons
      have : (1 : Int) - (1 - l) = l := by omega
      simp only [diffManchesterFrom, hc]
      norm_num
      simp only [differential_manchester_decode, if_pos rfl]
      simpa [this] using ih

/-- Differential Manchester round trip loses the first bit: only the
start-of-symbol transitions between consecutive symbols are read. -/
theorem dm_enc_dec (B : List Int) (hB : ValidBits B) :
    differential_manchester_decode (differential_manchester_encode B) = B.tail := by
  cases B with
  | nil => rfl
  | cons b rest =>
    rcases hB b (by simp) with hb | hb
    · have := dm_decode_aux rest 1 (1 - 0) hB.of_cons
      simpa [differential_manchester_encode, diffManchesterFrom, hb] using this
    · have := dm_decode_aux rest 0 0 hB.of_cons
      simpa [differential_manchester_encode, diffManchesterFrom, hb] using this

/-- Biphase Mark: the pair loop inverts the encoder when started at the
encoder's running level. -/
theorem bm_decode_aux : ∀ (B : List Int) (l : Int),
    ValidBits B → biphaseMarkDecAux l (biphaseMarkFrom l B) = B
  | [], _, _ => rfl
  | b :: rest, l, h => by
    rcases h b (by simp) with hb | hb
    · have ih := bm_decode_aux rest (1 - l) h.of_cons
      have hb1 : b ≠ 1 := by omega
      simp [biphaseMarkFrom, hb, hb1, biphaseMarkDecAux, ih]
    · have ih := bm_decode_aux rest (1 - (1 - l)) h.of_cons
      have hne : l ≠ 1 - l := by omega
      simp only [sub_sub_cancel] at ih
      simp [biphaseMarkFrom, hb, biphaseMarkDecAux, hne, ih]

/-- Biphase Mark round trip: the `i > 0` guard forces the first decoded
bit to 0; later bits are recovered. -/
theorem bm_enc_dec (B : List Int) (hB : ValidBits B) (hN : 1 ≤ B.length) :
    biphase_mark_decode (biphase_mark_encode B) = 0 :: B.tail := by
  match B, hN with
  | b :: rest, _ =>
    rcases hB b (by simp) with hb | hb
    · have ih := bm_decode_aux rest (1 - 0) hB.of_cons
      have hb1 : b ≠ 1 := by omega
      norm_num at ih
      simp [biphase_mark_encode, biphaseMarkFrom, hb, hb1, biphase_mark_decode, ih]
    · have ih := bm_decode_aux rest (1 - (1 - 0)) hB.of_cons
      norm_num at ih
      simp [biphase_mark_encode, biphaseMarkFrom, hb, biphase_mark_decode, ih]

/-- Biphase Space: the pair loop inverts the encoder when started at the
encoder's running level. -/
theorem bs_decode_aux : ∀ (B : List Int) (l : Int),
    ValidBits B → biphaseSpaceDecAux l (biphaseSpaceFrom l B) = B
  | [], _, _ => rfl
  | b :: rest, l, h => by
    rcases h b (by simp) with hb | hb
    · have ih := bs_decode_aux rest (1 - (1 - l)) h.of_cons
      have hne : l ≠ 1 - l := by omega
      simp only [sub_sub_cancel] at ih
      simp [biphaseSpaceFrom, hb, biphaseSpaceDecAux, hne, ih]
    · have ih := bs_decode_aux rest (1 - l) h.of_cons
      have hb0 : b ≠ 0 := by omega
      simp [biphaseSpaceFrom, hb, hb0, biphaseSpaceDecAux, ih]

/-- Biphase Space round trip: the first decoded bit is forced to 1. -/
theorem bs_enc_dec (B : List Int) (hB : ValidBits B) (hN : 1 ≤ B.length) :
    biphase_space_decode (biphase_space_encode B) = 1 :: B.tail := by
  match B, hN with
  | b :: rest, _ =>
    rcases hB b (by simp) with hb | hb
    · have ih := bs_decode_aux rest (1 - (1 - 0)) hB.of_cons
      norm_num at ih
      simp [biphase_space_encode, biphaseSpaceFrom, hb, biphase_space_decode, ih]
    · have ih := bs_decode_aux rest (1 - 0) hB.of_cons
      have hb0 : b ≠ 0 := by omega
      norm_num at ih
      simp [biphase_space_encode, biphaseSpaceFrom, hb, hb0, biphase_space_decode, ih]

end Transmissao

namespace Transmissao

/-- C1 counterexample: for scheme NRZI and the valid one-bit input `[1]`,
`decode(encode([1], NRZI), NRZI)` is empty (the decoder skips the first
sample and adds no padding), so the round-trip law fails even after
removing the padding the decoder reports. -/
theorem roundtrip_claim_false :
    ValidBits [1] ∧ 1 ≤ ([1] : List Int).length ∧
    (decodeWithPad (encode1 [1] .NRZI) .NRZI).1.take
        ((decodeWithPad (encode1 [1] .NRZI) .NRZI).1.length -
          (decodeWithPad (encode1 [1] .NRZI) .NRZI).2) ≠ ([1] : List Int) := by
  refine ⟨?_, by decide, by decide⟩
  intro b hb
  simp at hb
  simp [hb]

/-- C1 amended: the exact round-trip behaviour of teste1.py's
`encode`/`decode` pair on a genuine bit sequence of length ≥ 1.  NRZ and
AMI reproduce the input exactly; Manchester reproduces it followed by
the decoder's 0-padding to the next multiple of 8; NRZI and Differential
Manchester lose the first bit; Biphase Mark and Biphase Space replace
the first bit by the constant 0 resp. 1.  So the round-trip law as
claimed holds only for NRZ, AMI and Manchester. -/
theorem roundtrip_characterization (B : List Int)
    (hB : ValidBits B) (hN : 1 ≤ B.length) :
    decode1 (encode1 B .NRZ) .NRZ = B ∧
    decode1 (encode1 B .AMI) .AMI = B ∧
    decode1 (encode1 B .Manchester) .Manchester =
      B ++ List.replicate (if B.length % 8 = 0 then 0 else 8 - B.length % 8) 0 ∧
    decode1 (encode1 B .NRZI) .NRZI = B.tail ∧
    decode1 (encode1 B .Differential_Manchester) .Differential_Manchester =
      B.tail ∧
    decode1 (encode1 B .Biphase_Mark) .Biphase_Mark = 0 :: B.tail ∧
    decode1 (encode1 B .Biphase_Space) .Biphase_Space = 1 :: B.tail := by
  refine ⟨rfl, ?_, ?_, ?_, ?_, ?_, ?_⟩
  · simpa [decode1, decodeWithPad, encode1, ami_encode] using
      ami_decode_amiFrom B 1 hB one_ne_zero
  · have h := mdGo_manchester_encode B 0 0 hB
    simp [decode1, decodeWithPad, encode1, Teste1.manchester_decode, h]
  · simpa [decode1, decodeWithPad, encode1] using nrzi_enc_dec B hB
  · simpa [decode1, decodeWithPad, encode1] using dm_enc_dec B hB
  · simpa [decode1, decodeWithPad, encode1] using bm_enc_dec B hB hN
  · simpa [decode1, decodeWithPad, encode1] using bs_enc_dec B hB hN

/-- C1 witness: the characterization instantiated at `B = [1,0,1]`. -/
theorem roundtrip_characterization_witness :
    ValidBits [1, 0, 1] ∧ 1 ≤ ([1, 0, 1] : List Int).length ∧
    (decode1 (encode1 [1, 0, 1] .NRZ) .NRZ = [1, 0, 1] ∧
     decode1 (encode1 [1, 0, 1] .AMI) .AMI = [1, 0, 1] ∧
     decode1 (encode1 [1, 0, 1] .Manchester) .Manchester =
       [1, 0, 1] ++ List.replicate
         (if ([1, 0, 1] : List Int).length % 8 = 0 then 0
          else 8 - ([1, 0, 1] : List Int).length % 8) 0 ∧
     decode1 (encode1 [1, 0, 1] .NRZI) .NRZI = ([1, 0, 1] : List Int).tail ∧
     decode1 (encode1 [1, 0, 1] .Differential_Manchester)
       .Differential_Manchester = ([1, 0, 1] : List Int).tail ∧
     decode1 (encode1 [1, 0, 1] .Biphase_Mark) .Biphase_Mark =
       0 :: ([1, 0, 1] : List Int).tail ∧
     decode1 (encode1 [1, 0, 1] .Biphase_Space) .Biphase_Space =
       1 :: ([1, 0, 1] : List Int).tail) :=
  ⟨by intro b hb; simp at hb; rcases hb with h | h | h <;> simp [h],
   by decide,
   roundtrip_characterization [1, 0, 1]
     (by intro b hb; simp at hb; rcases hb with h | h | h <;> simp [h])
     (by decide)⟩

end Transmissao

namespace Transmissao

/-! ## Manchester invalid-transition recovery (C4) -/

/-- Every warning position produced by the pair loop is at least the
starting sample position. -/
theorem mdGo_warn_ge : ∀ (lv : List Int) (prev : Int) (i w : Nat),
    w ∈ (Teste1.mdGo prev lv i).2 → i ≤ w
  | [], _, _, _ => by intro hw; simp [Teste1.mdGo] at hw
  | [_], _, _, _ => by intro hw; simp [Teste1.mdGo] at hw
  | a :: b :: rest, prev, i, w => by
    intro hw
    simp only [Teste1.mdGo] at hw
    split at hw
    · exact le_trans (by omega) (mdGo_warn_ge rest 0 (i + 2) w hw)
    · split at hw
      · exact le_trans (by omega) (mdGo_warn_ge rest 1 (i + 2) w hw)
      · rcases List.mem_cons.mp hw with h | h
        · omega
        · exact le_trans (by omega) (mdGo_warn_ge rest prev (i + 2) w h)

/-- The pair loop decodes one bit per complete pair. -/
theorem mdGo_fst_length : ∀ (lv : List Int) (prev : Int) (i : Nat),
    (Teste1.mdGo prev lv i).1.length = lv.length / 2
  | [], _, _ => by simp [Teste1.mdGo]
  | [_], _, _ => by simp [Teste1.mdGo]
  | a :: b :: rest, prev, i => by
    have ih0 := mdGo_fst_length rest 0 (i + 2)
    have ih1 := mdGo_fst_length rest 1 (i + 2)
    have ihp := mdGo_fst_length rest prev (i + 2)
    simp only [Teste1.mdGo]
    split
    · simp only [List.length_cons, ih0, List.length_cons]; omega
    · split
      · simp only [List.length_cons, ih1, List.length_cons]; omega
      · simp only [List.length_cons, ihp, List.length_cons]; omega

/-- When the pair at symbol index `k` is not a legal Manchester symbol,
the pair loop emits at position `k` the previously emitted bit (`prev`
when `k = 0`) and records exactly one warning at sample position
`i + 2k`. -/
theorem mdGo_invalid : ∀ (k : Nat) (lv : List Int) (prev : Int) (i : Nat),
    2 * k + 1 < lv.length →
    ¬ (lv.getD (2 * k) 0 = 0 ∧ lv.getD (2 * k + 1) 0 = 1) →
    ¬ (lv.getD (2 * k) 0 = 1 ∧ lv.getD (2 * k + 1) 0 = 0) →
    ((Teste1.mdGo prev lv i).1.getD k 0 =
       if k = 0 then prev else (Teste1.mdGo prev lv i).1.getD (k - 1) 0) ∧
    (Teste1.mdGo prev lv i).2.count (i + 2 * k) = 1
  | 0, lv, prev, i => by
    intro hlen h1 h2
    match lv, hlen with
    | a :: b :: rest, _ =>
      simp only [Nat.mul_zero, Nat.zero_add, List.getD_cons_zero,
        List.getD_cons_succ] at h1 h2
      simp only [Teste1.mdGo, if_neg h1, if_neg h2]
      refine ⟨by simp, ?_⟩
      have hnot : i ∉ (Teste1.mdGo prev rest (i + 2)).2 := fun hmem => by
        have := mdGo_warn_ge rest prev (i + 2) i hmem; omega
      simp [List.count_cons, List.count_eq_zero.mpr hnot]
  | k + 1, lv, prev, i => by
    intro hlen h1 h2
    match lv, hlen with
    | a :: b :: rest, hl =>
      have e1 : 2 * (k + 1) = 2 * k + 1 + 1 := by ring
      rw [e1] at h1 h2
      simp only [List.getD_cons_succ] at h1 h2
      have hlen' : 2 * k + 1 < rest.length := by
        simp only [List.length_cons] at hl; omega
      have hne : i + 2 * (k + 1) ≠ i := by omega
      have e2 : i + 2 * (k + 1) = (i + 2) + 2 * k := by ring
      simp only [Teste1.mdGo]
      split
      · have ih := mdGo_invalid k rest 0 (i + 2) hlen' h1 h2
        refine ⟨?_, by rw [e2]; exact ih.2⟩
        cases k with
        | zero => simpa using ih.1
        | succ j => simpa using ih.1
      · split
        · have ih := mdGo_invalid k rest 1 (i + 2) hlen' h1 h2
          refine ⟨?_, by rw [e2]; exact ih.2⟩
          cases k with
          | zero => simpa using ih.1
          | succ j => simpa using ih.1
        · have ih := mdGo_invalid k rest prev (i + 2) hlen' h1 h2
          refine ⟨?_, ?_⟩
          · cases k with
            | zero => simpa using ih.1
            | succ j => simpa using ih.1
          · simp only [List.count_cons, e2]
            have hne2 : ¬ (i = i + 2 + 2 * k) := by omega
            simp [hne2, ih.2]

end Transmissao

namespace Transmissao

/-- C4: teste1.py's Manchester decoder never aborts on an invalid pair:
whenever the pair at symbol index `k` is neither (0,1) nor (1,0), the
returned bit at position `k` is the previously decoded bit — 0 when the
invalid pair is the very first symbol — and exactly one warning is
recorded at that symbol's sample position `2k`.  In particular any input
whose pair at position 0 is `[1,1]` decodes to a recovery bit 0 at
position 0 with exactly one warning for that symbol. -/
theorem manchester_decode_invalid_recovery (lv : List Int) (k : Nat)
    (hk : 2 * k + 1 < lv.length)
    (h1 : ¬ (lv.getD (2 * k) 0 = 0 ∧ lv.getD (2 * k + 1) 0 = 1))
    (h2 : ¬ (lv.getD (2 * k) 0 = 1 ∧ lv.getD (2 * k + 1) 0 = 0)) :
    ((Teste1.manchester_decode lv).1.getD k 0 =
       if k = 0 then 0 else (Teste1.manchester_decode lv).1.getD (k - 1) 0) ∧
    (Teste1.manchester_decode lv).2.1.count (2 * k) = 1 := by
  have core := mdGo_invalid k lv 0 0 hk h1 h2
  have hlen := mdGo_fst_length lv 0 0
  have hklt : k < (Teste1.mdGo 0 lv 0).1.length := by rw [hlen]; omega
  have hklt' : k - 1 < (Teste1.mdGo 0 lv 0).1.length := by rw [hlen]; omega
  constructor
  · have e : (Teste1.manchester_decode lv).1 =
        (Teste1.mdGo 0 lv 0).1 ++
          List.replicate
            (if (Teste1.mdGo 0 lv 0).1.length % 8 = 0 then 0
             else 8 - (Teste1.mdGo 0 lv 0).1.length % 8) 0 := rfl
    rw [e, List.getD_append _ _ _ _ hklt, List.getD_append _ _ _ _ hklt']
    simpa using core.1
  · simpa using core.2

/-- C4 witness: decoding `[1,1,1,0]`, whose pair at position 0 is the
invalid symbol `[1,1]`, yields recovery bit 0 at position 0 and exactly
one warning at position 0. -/
theorem manchester_decode_invalid_recovery_witness :
    (2 * 0 + 1 < ([1, 1, 1, 0] : List Int).length ∧
     ¬ (([1, 1, 1, 0] : List Int).getD 0 0 = 0 ∧
        ([1, 1, 1, 0] : List Int).getD 1 0 = 1) ∧
     ¬ (([1, 1, 1, 0] : List Int).getD 0 0 = 1 ∧
        ([1, 1, 1, 0] : List Int).getD 1 0 = 0)) ∧
    ((Teste1.manchester_decode [1, 1, 1, 0]).1.getD 0 0 =
       if 0 = 0 then 0 else (Teste1.manchester_decode [1, 1, 1, 0]).1.getD 0 0) ∧
    (Teste1.manchester_decode [1, 1, 1, 0]).2.1.count (2 * 0) = 1 :=
  ⟨⟨by decide, by decide, by decide⟩,
   manchester_decode_invalid_recovery [1, 1, 1, 0] 0 (by decide)
     (by decide) (by decide)⟩

end Transmissao

namespace Transmissao

/-! ## Padding policy (C5) -/

/-- C5 counterexample: the NRZI decoder of teste1.py returns a bit count
that is not a multiple of 8 and adds no padding — decoding the 2-sample
input `[0,1]` yields the single bit `[1]`. -/
theorem padding_claim_false :
    ¬ ((decode1 [0, 1] .NRZI).length % 8 = 0) := by
  decide

/-- C5 amended: the padding-to-a-multiple-of-8 policy is applied by the
Manchester decoder only.  Its output is the raw pair-loop output
extended by exactly the reported number of 0-bits, and its length is
always a multiple of 8; every other scheme's decoder reports no
padding. -/
theorem padding_only_manchester (lv : List Int) :
    ((decode1 lv .Manchester).length % 8 = 0 ∧
     decode1 lv .Manchester =
       (Teste1.mdGo 0 lv 0).1 ++
         List.replicate (decodeWithPad lv .Manchester).2 0) ∧
    ∀ S, S ≠ Scheme.Manchester → (decodeWithPad lv S).2 = 0 := by
  refine ⟨⟨?_, rfl⟩, ?_⟩
  · show ((Teste1.mdGo 0 lv 0).1 ++
      List.replicate
        (if (Teste1.mdGo 0 lv 0).1.length % 8 = 0 then 0
         else 8 - (Teste1.mdGo 0 lv 0).1.length % 8) 0).length % 8 = 0
    rw [List.length_append, List.length_replicate]
    split <;> omega
  · intro S hS
    cases S <;> first | rfl | exact absurd rfl hS

/-- C5 witness: instantiated at `[0,1]` with scheme NRZI for the
non-Manchester conjunct. -/
theorem padding_only_manchester_witness :
    ((decode1 [0, 1] .Manchester).length % 8 = 0 ∧
     decode1 [0, 1] .Manchester =
       (Teste1.mdGo 0 [0, 1] 0).1 ++
         List.replicate (decodeWithPad [0, 1] .Manchester).2 0) ∧
    (Scheme.NRZI ≠ Scheme.Manchester ∧
     (decodeWithPad [0, 1] .NRZI).2 = 0) :=
  ⟨(padding_only_manchester [0, 1]).1,
   by decide,
   (padding_only_manchester [0, 1]).2 .NRZI (by decide)⟩

/-! ## Encode input validation (C6) -/

/-- C6 counterexample: `encode` performs no bit validation — the value 2
is neither 0 nor 1, yet `encode([2], "Manchester")` succeeds, treating 2
like a 1-bit and returning `[1, 0]`. -/
theorem encode_no_bit_validation :
    encodeByName [2] "Manchester" = .ok [1, 0] ∧
    ¬ ((2 : Int) = 0 ∨ (2 : Int) = 1) := by
  exact ⟨rfl, by decide⟩

/-- C6 amended: `encode` fails precisely when the scheme name is not one
of the seven registered ones, independently of the bit values — no
`InvalidBitError` exists, inputs containing values other than 0/1 are
encoded without complaint. -/
theorem encode_fails_iff_unknown_scheme (binary_data : List Int) (m : String) :
    (∃ out, encodeByName binary_data m = .ok out) ↔ m ∈ schemeNames := by
  simp only [encodeByName, schemeNames]
  split_ifs with h1 h2 h3 h4 h5 h6 h7 <;>
    simp_all

/-! ## Channel noise simulator (C7) -/

/-- When every per-sample draw lies below the threshold, every level is
flipped (0 ↦ 1, 1 ↦ 0, anything else ↦ 0). -/
theorem simGo_flip_all : ∀ (lv : List Int) (p : ℚ) (draws : Nat → ℚ) (n : Nat),
    (∀ m, draws m < p) →
    simGo p draws lv n =
      lv.map fun b => if b = 0 then 1 else if b = 1 then 0 else 0
  | [], _, _, _, _ => rfl
  | b :: rest, p, draws, n, h => by
    simp [simGo, h n, simGo_flip_all rest p draws (n + 1) h]

/-- C7 counterexample: `simulate_channel` raises no error for a
probability outside [0,1]: with probability 2 it returns a fully flipped
sequence, mutating the data instead of failing. -/
theorem apply_noise_claim_false :
    ¬ ((0 : ℚ) ≤ 2 ∧ (2 : ℚ) ≤ 1) ∧
    simulate_channel [0] 2 (fun _ => 1 / 2) = [1] ∧
    ([1] : List Int) ≠ [0] := by
  refine ⟨by norm_num, ?_, by decide⟩
  norm_num [simulate_channel, simGo]

/-- C7 amended: `simulate_channel` performs no probability validation.
Any probability ≤ 0 (including negative ones) returns the input
unchanged; any probability > 1 deterministically flips every level
(0 ↦ 1, 1 ↦ 0, the AMI level -1 ↦ 0) since every draw of
`np.random.random()` lies in [0,1). -/
theorem simulate_channel_no_validation (lv : List Int) (p : ℚ)
    (draws : Nat → ℚ) (hd : ∀ n, 0 ≤ draws n ∧ draws n < 1) :
    (p ≤ 0 → simulate_channel lv p draws = lv) ∧
    (1 < p → simulate_channel lv p draws =
      lv.map fun b => if b = 0 then 1 else if b = 1 then 0 else 0) := by
  constructor
  · intro hp
    simp [simulate_channel, hp]
  · intro hp
    have hnp : ¬ p ≤ 0 := by linarith
    have hall : ∀ m, draws m < p := fun m => lt_trans (hd m).2 (by linarith)
    simp [simulate_channel, hnp, simGo_flip_all lv p draws 0 hall]

/-- C7 witness: draws constantly 1/2, probability 2, input `[0, 1, -1]`. -/
theorem simulate_channel_no_validation_witness :
    (∀ n : Nat, 0 ≤ ((fun _ : Nat => (1 : ℚ) / 2) n) ∧
      ((fun _ : Nat => (1 : ℚ) / 2) n) < 1) ∧
    (((2 : ℚ) ≤ 0 → simulate_channel [0, 1, -1] 2 (fun _ => 1 / 2) = [0, 1, -1]) ∧
     ((1 : ℚ) < 2 → simulate_channel [0, 1, -1] 2 (fun _ => 1 / 2) =
       ([0, 1, -1] : List Int).map
         fun b => if b = 0 then 1 else if b = 1 then 0 else 0)) :=
  ⟨fun _ => by norm_num,
   simulate_channel_no_validation [0, 1, -1] 2 (fun _ => 1 / 2)
     (fun _ => by norm_num)⟩

/-! ## Duplicate-file equivalence of the Manchester decoders (C10) -/

/-- On an input all of whose pairs are legal Manchester symbols, the
teste1 pair loop produces exactly teste.py's decoder output (and the
carried `prev` is irrelevant). -/
theorem mdGo_eq_of_validPairs : ∀ (lv : List Int) (prev : Int) (i : Nat),
    validPairsB lv = true →
    (Teste1.mdGo prev lv i).1 = Teste.manchester_decode lv
  | [], _, _, _ => rfl
  | [_], _, _, _ => rfl
  | a :: b :: rest, prev, i, h => by
    simp only [validPairsB, Bool.and_eq_true, Bool.or_eq_true,
      Bool.and_eq_true, beq_iff_eq] at h
    rcases h.1 with ⟨ha, hb⟩ | ⟨ha, hb⟩ <;>
      subst ha <;> subst hb <;>
      simp [Teste1.mdGo, Teste.manchester_decode,
        mdGo_eq_of_validPairs rest _ (i + 2) h.2]

/-- C10 counterexample: on the single valid symbol `[0,1]` the teste.py
decoder returns `[0]` while the teste1.py decoder pads its output to
eight bits, so the two files do not return the same bit sequence. -/
theorem manchester_decode_files_differ :
    (Teste1.manchester_decode [0, 1]).1 ≠ Teste.manchester_decode [0, 1] := by
  decide

/-- C10 amended: the two Manchester decoders agree exactly on inputs all
of whose consumed pairs are valid Manchester symbols and whose symbol
count is a multiple of 8 (so that teste1.py neither injects recovery
bits nor appends padding). -/
theorem manchester_decode_duplicate_agreement (lv : List Int)
    (h1 : validPairsB lv = true) (h2 : (lv.length / 2) % 8 = 0) :
    (Teste1.manchester_decode lv).1 = Teste.manchester_decode lv := by
  have heq := mdGo_eq_of_validPairs lv 0 0 h1
  have hlen : (Teste.manchester_decode lv).length = lv.length / 2 :=
    heq ▸ mdGo_fst_length lv 0 0
  have e : (Teste1.manchester_decode lv).1 =
      (Teste1.mdGo 0 lv 0).1 ++
        List.replicate
          (if (Teste1.mdGo 0 lv 0).1.length % 8 = 0 then 0
           else 8 - (Teste1.mdGo 0 lv 0).1.length % 8) 0 := rfl
  rw [e, heq, hlen, if_pos h2]
  simp

/-- C10 witness: sixteen valid samples (eight symbols) decode
identically in both files. -/
theorem manchester_decode_duplicate_agreement_witness :
    (validPairsB [0, 1, 1, 0, 0, 1, 1, 0, 0, 1, 1, 0, 0, 1, 1, 0] = true ∧
     (([0, 1, 1, 0, 0, 1, 1, 0, 0, 1, 1, 0, 0, 1, 1, 0] : List Int).length / 2)
       % 8 = 0) ∧
    (Teste1.manchester_decode
        [0, 1, 1, 0, 0, 1, 1, 0, 0, 1, 1, 0, 0, 1, 1, 0]).1 =
      Teste.manchester_decode [0, 1, 1, 0, 0, 1, 1, 0, 0, 1, 1, 0, 0, 1, 1, 0] :=
  ⟨⟨by decide, by decide⟩,
   manchester_decode_duplicate_agreement
     [0, 1, 1, 0, 0, 1, 1, 0, 0, 1, 1, 0, 0, 1, 1, 0] (by decide) (by decide)⟩

end Transmissao

namespace Transmissao

/-! ## AMI output shape (C8) -/

theorem amiFrom_length : ∀ (B : List Int) (p : Int),
    (amiFrom p B).length = B.length
  | [], _ => rfl
  | b :: rest, p => by
    by_cases hb : b = 0 <;>
      simp [amiFrom, hb, amiFrom_length rest]

/-- Position-wise values of the AMI output while the running polarity is
±1: a 0-bit gives level 0, a 1-bit gives a level in {1, -1}. -/
theorem amiFrom_getD_cases : ∀ (B : List Int) (p : Int) (i : Nat),
    (p = 1 ∨ p = -1) → i < B.length →
    (B.getD i 0 = 0 → (amiFrom p B).getD i 0 = 0) ∧
    (B.getD i 0 = 1 →
      (amiFrom p B).getD i 0 = 1 ∨ (amiFrom p B).getD i 0 = -1)
  | b :: rest, p, 0, hp, _ => by
    constructor <;> intro h <;> simp only [List.getD_cons_zero] at h
    · simp [amiFrom, h]
    · have hb : ¬ b = 0 := by omega
      rcases hp with hp | hp <;> simp [amiFrom, hb, hp]
  | b :: rest, p, i + 1, hp, hi => by
    have hi' : i < rest.length := by simp at hi; omega
    by_cases hb : b = 0
    · have ih := amiFrom_getD_cases rest p i hp hi'
      simpa [amiFrom, hb, List.getD_cons_succ] using ih
    · have hp' : -p = 1 ∨ -p = -1 := by omega
      have ih := amiFrom_getD_cases rest (-p) i hp' hi'
      simpa [amiFrom, hb, List.getD_cons_succ] using ih

/-- After a run of `m` 0-bits, a 1-bit is emitted with level `-p`. -/
theorem amiFrom_getD_after_zeros : ∀ (B : List Int) (p : Int) (m : Nat),
    (∀ k, k < m → B.getD k 0 = 0) → B.getD m 0 = 1 → m < B.length →
    (amiFrom p B).getD m 0 = -p
  | b :: rest, p, 0, _, h1, _ => by
    simp only [List.getD_cons_zero] at h1
    have hb : ¬ b = 0 := by omega
    simp [amiFrom, hb]
  | b :: rest, p, m + 1, hz, h1, hm => by
    have hb : b = 0 := by simpa using hz 0 (by omega)
    have ih := amiFrom_getD_after_zeros rest p m
      (fun k hk => by simpa using hz (k + 1) (by omega))
      (by simpa using h1) (by simp at hm; omega)
    simp [amiFrom, hb, List.getD_cons_succ]
    simpa using ih

/-- Two 1-bits separated only by 0-bits produce levels of opposite
sign. -/
theorem amiFrom_alternating : ∀ (B : List Int) (p : Int) (i j : Nat),
    i < j → j < B.length →
    B.getD i 0 = 1 → B.getD j 0 = 1 →
    (∀ k, i < k → k < j → B.getD k 0 = 0) →
    (amiFrom p B).getD j 0 = -((amiFrom p B).getD i 0)
  | b :: rest, p, 0, j, hij, hj, hi1, hj1, hz => by
    have hb : b = 1 := by simpa using hi1
    obtain ⟨j', rfl⟩ : ∃ j', j = j' + 1 := ⟨j - 1, by omega⟩
    have hz' : ∀ k, k < j' → rest.getD k 0 = 0 := fun k hk => by
      simpa using hz (k + 1) (by omega) (by omega)
    have hj1' : rest.getD j' 0 = 1 := by simpa using hj1
    have hjlen : j' < rest.length := by simp at hj; omega
    have key := amiFrom_getD_after_zeros rest (-p) j' hz' hj1' hjlen
    have hb0 : ¬ b = 0 := by omega
    simp [amiFrom, hb0, List.getD_cons_succ, List.getD_cons_zero]
    simpa using key
  | b :: rest, p, i + 1, j, hij, hj, hi1, hj1, hz => by
    obtain ⟨j', rfl⟩ : ∃ j', j = j' + 1 := ⟨j - 1, by omega⟩
    have hz' : ∀ k, i < k → k < j' → rest.getD k 0 = 0 := fun k h1 h2 => by
      simpa using hz (k + 1) (by omega) (by omega)
    have hjlen : j' < rest.length := by simp at hj; omega
    by_cases hb : b = 0
    · have ih := amiFrom_alternating rest p i j' (by omega) hjlen
        (by simpa using hi1) (by simpa using hj1) hz'
      simp [amiFrom, hb, List.getD_cons_succ]
      simpa using ih
    · have ih := amiFrom_alternating rest (-p) i j' (by omega) hjlen
        (by simpa using hi1) (by simpa using hj1) hz'
      simp [amiFrom, hb, List.getD_cons_succ]
      simpa using ih

/-- C8: AMI encode of a genuine bit sequence preserves length; every
0-bit becomes level 0, every 1-bit a level in {+1, -1}; and any two
1-bits with only 0-bits between them (0-bits never affect the polarity)
get levels of opposite sign. -/
theorem ami_encode_spec (B : List Int) (_hB : ValidBits B) :
    (ami_encode B).length = B.length ∧
    (∀ i, i < B.length →
      (B.getD i 0 = 0 → (ami_encode B).getD i 0 = 0) ∧
      (B.getD i 0 = 1 →
        (ami_encode B).getD i 0 = 1 ∨ (ami_encode B).getD i 0 = -1)) ∧
    (∀ i j, i < j → j < B.length →
      B.getD i 0 = 1 → B.getD j 0 = 1 →
      (∀ k, i < k → k < j → B.getD k 0 = 0) →
      (ami_encode B).getD j 0 = -((ami_encode B).getD i 0)) :=
  ⟨amiFrom_length B 1,
   fun i hi => amiFrom_getD_cases B 1 i (Or.inl rfl) hi,
   fun i j hij hj hi1 hj1 hz => amiFrom_alternating B 1 i j hij hj hi1 hj1 hz⟩

/-- C8 witness: instantiated at `B = [1,0,1]` (two 1-bits separated by a
0-bit). -/
theorem ami_encode_spec_witness :
    ValidBits [1, 0, 1] ∧
    (ami_encode [1, 0, 1]).length = ([1, 0, 1] : List Int).length ∧
    (([1, 0, 1] : List Int).getD 0 0 = 1 →
      (ami_encode [1, 0, 1]).getD 0 0 = 1 ∨
      (ami_encode [1, 0, 1]).getD 0 0 = -1) ∧
    (ami_encode [1, 0, 1]).getD 2 0 = -((ami_encode [1, 0, 1]).getD 0 0) :=
  have hv : ValidBits [1, 0, 1] := by
    intro b hb; simp at hb; rcases hb with h | h | h <;> simp [h]
  ⟨hv,
   (ami_encode_spec [1, 0, 1] hv).1,
   ((ami_encode_spec [1, 0, 1] hv).2.1 0 (by decide)).2,
   (ami_encode_spec [1, 0, 1] hv).2.2 0 2 (by decide) (by decide)
     (by decide) (by decide)
     (fun k hk1 hk2 => by interval_cases k; decide)⟩

end Transmissao
